import Mathlib

/-!
Verification development for the DBC-to-table converter (`dbc_excel.py`).

The Python source is a set of independent regex passes over the DBC text.
We embed it shallowly:

* character-level string routines (`str.strip`, `str.split(None, n)`,
  `str.isdigit`, `int(...)`, the pair regex of `_parse_value_dict`, the
  token shapes of the two `VAL_` patterns) are translated to executable
  functions on `List Char`;
* the statement-level passes (`_parse_messages_and_signals`,
  `_parse_comments`, `_parse_value_tables`, the two `VAL_` passes,
  `_parse_ba_assignments`) are translated to folds over a list of
  recognized statements (`Stmt`), one constructor per regex shape, with
  the captured groups as payload.  Scanning order of `re.finditer` is the
  statement order of the list.
* Python dicts are insertion-ordered association lists (`dictSet` updates
  in place, exactly like `d[k] = v`).
* the uncaught `ValueError` of `int(...)` inside `_parse_ba_assignments`
  is an `Except.error` that aborts the fold, like the exception aborts the
  Python loop.
-/

namespace Dbc

/-- Python `str.isdigit` / regex `\d` on one ASCII character. -/
def isPyDigit (c : Char) : Bool := 48 ≤ c.toNat && c.toNat ≤ 57

/-- Regex `\s` / Python whitespace on one ASCII character. -/
def isPySpace (c : Char) : Bool :=
  c.toNat = 32 || c.toNat = 9 || c.toNat = 10 || c.toNat = 13 || c.toNat = 11 || c.toNat = 12

/-- Negation of `isPySpace`, the regex class `\S`. -/
def notSpace (c : Char) : Bool := !(isPySpace c)

/-- Strip characters satisfying `p` from both ends, like Python `str.strip`. -/
def stripChars (p : Char → Bool) (s : String) : String :=
  String.mk (((s.toList.dropWhile p).reverse.dropWhile p).reverse)

/-- Python `str.strip()` (whitespace from both ends). -/
def pyStrip (s : String) : String := stripChars isPySpace s

/-- Python `value.strip('"')`: all leading and trailing double quotes removed. -/
def stripQuotes (s : String) : String := stripChars (fun c => c = '"') s

/-- Value of a nonempty run of ASCII digits, as `int(...)` computes it. -/
def digitsToNat (cs : List Char) : Nat :=
  cs.foldl (fun n c => 10 * n + (c.toNat - 48)) 0

/-- Python `int(s)` on a token: optional surrounding whitespace, optional
sign, then a nonempty digit run; anything else raises, modelled as `none`. -/
def pyInt (s : String) : Option Int :=
  let cs := (pyStrip s).toList
  let core : Bool → List Char → Option Int := fun neg ds =>
    if ds.isEmpty || !(ds.all isPyDigit) then none
    else if neg then some (-(Int.ofNat (digitsToNat ds)))
    else some (Int.ofNat (digitsToNat ds))
  match cs with
  | '-' :: rest => core true rest
  | '+' :: rest => core false rest
  | rest => core false rest

/-- Helper for Python `str.split(None, maxsplit)`: `fuel` only bounds the
recursion and is always sufficient when at least the input length. -/
def pySplitAux (fuel : Nat) (cs : List Char) (maxsplit : Nat) : List (List Char) :=
  match fuel with
  | 0 => []
  | fuel + 1 =>
    let cs := cs.dropWhile isPySpace
    if cs.isEmpty then []
    else
      match maxsplit with
      | 0 => [cs]
      | maxsplit + 1 =>
        let tok := cs.takeWhile notSpace
        let rest := cs.dropWhile notSpace
        tok :: pySplitAux fuel rest maxsplit

/-- Python `s.split(None, maxsplit)`. -/
def pySplit (s : String) (maxsplit : Nat) : List String :=
  (pySplitAux (s.toList.length + 1) s.toList maxsplit).map String.mk

/-- Python `s.split()` (no maxsplit limit: a split count bounded by the
length of the string never limits anything). -/
def pySplitAll (s : String) : List String := pySplit s s.toList.length

/-- Boolean prefix test on character lists, for Python `str.startswith`. -/
def listStartsWith : List Char → List Char → Bool
  | [], _ => true
  | _ :: _, [] => false
  | a :: as, b :: bs => a = b && listStartsWith as bs

/-- Python `s.startswith(p)`. -/
def strStartsWith (s p : String) : Bool := listStartsWith p.toList s.toList

/-- The extended-frame normalization applied to every raw message ID:
`msg_id_raw - 0x80000000 if msg_id_raw >= 0x80000000 else msg_id_raw`. -/
def normId (raw : Nat) : Nat :=
  if 0x80000000 ≤ raw then raw - 0x80000000 else raw

/-- Python dict update `d[k] = v` on an insertion-ordered association list:
an existing key keeps its position and gets the new value, a new key is
appended at the end. -/
def dictSet {α β : Type} [DecidableEq α] (d : List (α × β)) (k : α) (v : β) :
    List (α × β) :=
  match d with
  | [] => [(k, v)]
  | (k', v') :: t => if k' = k then (k, v) :: t else (k', v') :: dictSet t k v

/-- Lookup of a key in an association list (first match). -/
def dictLookup {α β : Type} [DecidableEq α] (d : List (α × β)) (k : α) : Option β :=
  match d with
  | [] => none
  | (k', v) :: t => if k' = k then some v else dictLookup t k

/-- Python `k in d`. -/
def dictMem {α β : Type} [DecidableEq α] (d : List (α × β)) (k : α) : Bool :=
  (dictLookup d k).isSome

/-- One attempt of the `_parse_value_dict` pattern `(-?\d+)\s+"([^"]*)"` at
the head of the character list: optional minus, a nonempty digit run, a
nonempty whitespace run, then a double-quoted run of non-quote characters.
Returns the two captured groups and the characters after the match. -/
def matchValuePair (cs : List Char) : Option (Int × String × List Char) :=
  let (neg, cs1) :=
    match cs with
    | '-' :: t => (true, t)
    | _ => (false, cs)
  let ds := cs1.takeWhile isPyDigit
  let r1 := cs1.dropWhile isPyDigit
  if ds.isEmpty then none
  else if (r1.takeWhile isPySpace).isEmpty then none
  else
    match r1.dropWhile isPySpace with
    | '"' :: cs2 =>
      let vs := cs2.takeWhile (fun c => c ≠ '"')
      match cs2.dropWhile (fun c => c ≠ '"') with
      | '"' :: cs3 =>
        let k : Int := if neg then -(Int.ofNat (digitsToNat ds)) else Int.ofNat (digitsToNat ds)
        some (k, String.mk vs, cs3)
      | _ => none
    | _ => none

/-- The `re.finditer` scan of the pair pattern: try a match at the current
position, emit it and continue after it, otherwise advance one character.
`fuel` bounds the recursion and is always sufficient at `length + 1`. -/
def scanValuePairs (fuel : Nat) (cs : List Char) : List (Int × String) :=
  match fuel with
  | 0 => []
  | fuel + 1 =>
    match matchValuePair cs with
    | some (k, v, rest) => (k, v) :: scanValuePairs fuel rest
    | none =>
      match cs with
      | [] => []
      | _ :: t => scanValuePairs fuel t

/-- The dict built by the `result[key] = value` loop of `_parse_value_dict`. -/
def buildValueDict (pairs : List (Int × String)) : List (Int × String) :=
  pairs.foldl (fun d p => dictSet d p.1 p.2) []

/-- The shared pair-parsing primitive `_parse_value_dict(values_str)`. -/
def parse_value_dict (values_str : String) : List (Int × String) :=
  buildValueDict (scanValuePairs (values_str.toList.length + 1) values_str.toList)

/-- Insertion into a list sorted by the integer key. -/
def insertByKey (p : Int × String) : List (Int × String) → List (Int × String)
  | [] => [p]
  | q :: t => if p.1 ≤ q.1 then p :: q :: t else q :: insertByKey p t

/-- Python `sorted(values.items())` for a dict with integer keys. -/
def sortPairs (l : List (Int × String)) : List (Int × String) :=
  l.foldr insertByKey []

/-- The shared pair-formatter of `create_excel_from_dbc`:
`' '.join([f'{k}:"{v}"' for k, v in sorted(values.items())])`. -/
def formatValueDict (d : List (Int × String)) : String :=
  String.intercalate " " ((sortPairs d).map (fun p => toString p.1 ++ ":\"" ++ p.2 ++ "\""))

/-- Uppercase hexadecimal digit table for Python `f"0x{v:X}"`. -/
def hexDigit (n : Nat) : Char := "0123456789ABCDEF".toList.getD n '0'

/-- Helper for `natHexUpper`; `fuel` bounds the recursion and is always
sufficient at `n + 1`. -/
def natHexAux (fuel n : Nat) : List Char :=
  match fuel with
  | 0 => []
  | fuel + 1 =>
    if n < 16 then [hexDigit n]
    else natHexAux fuel (n / 16) ++ [hexDigit (n % 16)]

/-- Python `f"{v:X}"`: uppercase hexadecimal digits of a natural number. -/
def natHexUpper (n : Nat) : String := String.mk (natHexAux (n + 1) n)

/-- The captured groups of one `SG_` signal match: name, optional
multiplexing token (empty when the optional group is absent), start bit,
bit length, byte-order digit, sign character, factor, offset, minimum,
maximum, unit, and the trailing receivers text. -/
structure SigDecl where
  name : String
  mux : String
  start_bit : Nat
  length : Nat
  byte_order : String
  sign : String
  factor : String
  offset : String
  minimum : String
  maximum : String
  unit : String
  receivers_str : String
deriving DecidableEq

/-- One recognized statement of the DBC text, i.e. one regex match of the
corresponding pass, with the captured groups as payload.  Statement order
in the list is textual order. -/
inductive Stmt where
  | bo (rawId : Nat) (name : String) (dlc : Nat) (transmitter : String)
  | sg (d : SigDecl)
  | valTable (name : String) (valuesStr : String)
  | valEntry (body : String)
  | cmBo (rawId : Nat) (text : String)
  | cmSg (rawId : Nat) (sigName : String) (text : String)
  | cmBu (node : String) (text : String)
  | cmEv (env : String) (text : String)
  | ba (attrName : String) (rest : String)
deriving DecidableEq

/-- True exactly on message declarations. -/
def isBo : Stmt → Bool
  | .bo _ _ _ _ => true
  | _ => false

/-- The message record built by `_parse_messages_and_signals` for one
`BO_` match. -/
structure Message where
  id : Nat
  id_hex : String
  name : String
  dlc : Nat
  transmitter : String
  is_extended : Bool
  comment : String
deriving DecidableEq

/-- Builds the message dict of one `BO_` match, including the extended-ID
normalization of the raw identifier. -/
def mkMessage (raw : Nat) (name : String) (dlc : Nat) (transmitter : String) : Message :=
  let is_extended := decide (0x80000000 ≤ raw)
  let msg_id := if 0x80000000 ≤ raw then raw - 0x80000000 else raw
  { id := msg_id
    id_hex := "0x" ++ natHexUpper msg_id
    name := name
    dlc := dlc
    transmitter := transmitter
    is_extended := is_extended
    comment := "" }

/-- The signal record built by `_parse_messages_and_signals` for one `SG_`
match that was associated with message `msg_id`. -/
structure Signal where
  msg_id : Nat
  name : String
  start_bit : Nat
  length : Nat
  byte_order_sign : String
  factor_offset : String
  min_max : String
  unit : String
  receivers : String
  multiplexing : String
  comment : String
  value_table : String
deriving DecidableEq

/-- The receivers field:
`','.join([r.strip() for r in receivers_str.replace(',', ' ').split() if r.strip()])`
applied to the stripped receivers group. -/
def joinReceivers (receivers_str : String) : String :=
  let s := pyStrip receivers_str
  let toks := pySplitAll (String.mk (s.toList.map (fun c => if c = ',' then ' ' else c)))
  String.intercalate "," ((toks.map pyStrip).filter (fun r => r ≠ ""))

/-- Builds the signal dict of one `SG_` match. -/
def mkSignal (msg_id : Nat) (d : SigDecl) : Signal :=
  { msg_id := msg_id
    name := d.name
    start_bit := d.start_bit
    length := d.length
    byte_order_sign := "@" ++ d.byte_order ++ d.sign
    factor_offset := "(" ++ pyStrip d.factor ++ "," ++ pyStrip d.offset ++ ")"
    min_max := "[" ++ pyStrip d.minimum ++ "|" ++ pyStrip d.maximum ++ "]"
    unit := d.unit
    receivers := joinReceivers d.receivers_str
    multiplexing := d.mux
    comment := ""
    value_table := "" }

/-- The mutable state of `_parse_messages_and_signals`: the message list
and the `msg_id -> [signals]` dict. -/
structure DbcState where
  messages : List Message
  signals : List (Nat × List Signal)
deriving DecidableEq

/-- `self.signals[k].append(s)`: appends to the list stored under an
existing key, leaving every other entry unchanged. -/
def dictAppendSig (d : List (Nat × List Signal)) (k : Nat) (s : Signal) :
    List (Nat × List Signal) :=
  d.map (fun p => if p.1 = k then (p.1, p.2 ++ [s]) else p)

/-- Phase one of `_parse_messages_and_signals`: one `BO_` match appends the
message record and initializes `signals[msg_id] = []`. -/
def msgStep (st : DbcState) (s : Stmt) : DbcState :=
  match s with
  | .bo raw name dlc tx =>
    let msg := mkMessage raw name dlc tx
    { messages := st.messages ++ [msg], signals := dictSet st.signals msg.id [] }
  | _ => st

/-- The full first phase over the statement list. -/
def parseMessagesPhase (stmts : List Stmt) : DbcState :=
  stmts.foldl msgStep ⟨[], []⟩

/-- The backwards search of the signal loop: the last `BO_` match located
before the signal (`content[:sig_pos]`), its raw ID normalized. -/
def lastBoId (stmts : List Stmt) : Option Nat :=
  stmts.foldl
    (fun acc s =>
      match s with
      | .bo raw _ _ _ => some (normId raw)
      | _ => acc)
    none

/-- The body of the signal loop for one `SG_` match: find the last
preceding message, and if its normalized ID is a key of the signals dict,
append the signal record there; otherwise drop the signal. -/
def processSg (seen : List Stmt) (d : SigDecl) (st : DbcState) : DbcState :=
  match lastBoId seen with
  | none => st
  | some m =>
    if dictMem st.signals m then
      { st with signals := dictAppendSig st.signals m (mkSignal m d) }
    else st

/-- Phase two of `_parse_messages_and_signals`: walk the statements in
textual order, keeping the already-passed text `seen`, and process each
`SG_` match against it. -/
def parseSignalsPhase (seen : List Stmt) (rest : List Stmt) (st : DbcState) : DbcState :=
  match rest with
  | [] => st
  | s :: rest =>
    let st' :=
      match s with
      | .sg d => processSg seen d st
      | _ => st
    parseSignalsPhase (seen ++ [s]) rest st'

/-- `_parse_messages_and_signals`: the message pass followed by the signal
pass over the same text. -/
def parse_messages_and_signals (stmts : List Stmt) : DbcState :=
  parseSignalsPhase [] stmts (parseMessagesPhase stmts)

/-- The signal list stored under one message ID. -/
def sigListAt (st : DbcState) (k : Nat) : List Signal :=
  (dictLookup st.signals k).getD []

/-- `_parse_value_tables`: each `VAL_TABLE_` match stores the parsed pair
dict under the table name. -/
def parse_value_tables (stmts : List Stmt) : List (String × List (Int × String)) :=
  stmts.foldl
    (fun d s =>
      match s with
      | .valTable name vals => dictSet d name (parse_value_dict vals)
      | _ => d)
    []

/-- `_parse_comments`: four independent scans (message, signal, node,
environment variable), appended in that order, message and signal targets
normalized and rendered in decimal. -/
def parse_comments (stmts : List Stmt) : List (String × String × String) :=
  (stmts.filterMap (fun s =>
     match s with
     | .cmBo raw text => some ("BO", toString (normId raw), text)
     | _ => none))
  ++ (stmts.filterMap (fun s =>
     match s with
     | .cmSg raw sig text => some ("SG", toString (normId raw) ++ ":" ++ sig, text)
     | _ => none))
  ++ (stmts.filterMap (fun s =>
     match s with
     | .cmBu node text => some ("BU", node, text)
     | _ => none))
  ++ (stmts.filterMap (fun s =>
     match s with
     | .cmEv env text => some ("EV", env, text)
     | _ => none))

/-- Match of the signal-scoped `VAL_` pattern
`VAL_\s+(\d+)\s+(\S+)\s+(.+?)\s*;` against the entry body (the text
between `VAL_` and the terminator, trailing whitespace stripped): a
nonempty digit run, whitespace, a nonempty non-space token, whitespace,
and a nonempty remainder.  Returns the three captured groups. -/
def splitValSignal (body : String) : Option (String × String × String) :=
  let cs := body.toList
  let ds := cs.takeWhile isPyDigit
  let r1 := cs.dropWhile isPyDigit
  let r2 := r1.dropWhile isPySpace
  let tok := r2.takeWhile notSpace
  let r3 := r2.dropWhile notSpace
  let r4 := r3.dropWhile isPySpace
  if ds.isEmpty || (r1.takeWhile isPySpace).isEmpty || tok.isEmpty
      || (r3.takeWhile isPySpace).isEmpty || r4.isEmpty then none
  else some (String.mk ds, String.mk tok, String.mk r4)

/-- Match of the environment-variable `VAL_` pattern
`VAL_\s+(\S+)\s+(.+?)\s*;` against the same entry body: a nonempty
non-space token, whitespace, and a nonempty remainder. -/
def splitValEnv (body : String) : Option (String × String) :=
  let cs := body.toList
  let tok := cs.takeWhile notSpace
  let r1 := cs.dropWhile notSpace
  let r2 := r1.dropWhile isPySpace
  if tok.isEmpty || (r1.takeWhile isPySpace).isEmpty || r2.isEmpty then none
  else some (String.mk tok, String.mk r2)

/-- Python `str.isdigit`: nonempty and all digit characters. -/
def isPyDigitStr (s : String) : Bool := !(s.toList.isEmpty) && s.toList.all isPyDigit

/-- `_parse_signal_val_entries`: entries whose leading token is a digit
run are stored under `(normalized message ID, signal name)`. -/
def parse_signal_val_entries (stmts : List Stmt) :
    List ((Nat × String) × List (Int × String)) :=
  stmts.foldl
    (fun d s =>
      match s with
      | .valEntry body =>
        match splitValSignal body with
        | some (ds, sig, vs) =>
          dictSet d (normId (digitsToNat ds.toList), sig) (parse_value_dict vs)
        | none => d
      | _ => d)
    []

/-- `_parse_env_var_val_entries`: entries whose leading token is not all
digits are stored under that token as an environment-variable name. -/
def parse_env_var_val_entries (stmts : List Stmt) :
    List (String × List (Int × String)) :=
  stmts.foldl
    (fun d s =>
      match s with
      | .valEntry body =>
        match splitValEnv body with
        | some (tok, vs) =>
          if isPyDigitStr tok then d else dictSet d tok (parse_value_dict vs)
        | none => d
      | _ => d)
    []

/-- The per-match body of `_parse_ba_assignments`: the quoted attribute
name and the text before the terminator (stripped); the leading token of
that text selects the scope, the signal scope converts its message-ID
token with `int(...)` (a failure aborts with the `ValueError`), normalizes
it and builds the `"id:signal"` scope identifier, and the final value is
stripped of whitespace and surrounding quotes. -/
def processBa (attrName rest : String) :
    Except String (String × String × String × String) :=
  let rest := pyStrip rest
  if strStartsWith rest "BU_" then
    let parts := pySplit rest 2
    let scope_id := parts.getD 1 ""
    let value := parts.getD 2 ""
    .ok ("BU", scope_id, attrName, stripQuotes (pyStrip value))
  else if strStartsWith rest "BO_" then
    let parts := pySplit rest 2
    let scope_id := parts.getD 1 ""
    let value := parts.getD 2 ""
    .ok ("BO", scope_id, attrName, stripQuotes (pyStrip value))
  else if strStartsWith rest "SG_" then
    let parts := pySplit rest 3
    let msg_id := parts.getD 1 ""
    let sig_name := parts.getD 2 ""
    match pyInt msg_id with
    | none => .error ("invalid literal for int() with base 10: " ++ msg_id)
    | some n =>
      let n := if (0x80000000 : Int) ≤ n then n - 0x80000000 else n
      let scope_id := toString n ++ ":" ++ sig_name
      let value := parts.getD 3 ""
      .ok ("SG", scope_id, attrName, stripQuotes (pyStrip value))
  else if strStartsWith rest "EV_" then
    let parts := pySplit rest 2
    let scope_id := parts.getD 1 ""
    let value := parts.getD 2 ""
    .ok ("EV", scope_id, attrName, stripQuotes (pyStrip value))
  else
    .ok ("GLOBAL", "", attrName, stripQuotes (pyStrip rest))

/-- `_parse_ba_assignments`: processes the `BA_` matches in order,
appending each record; an uncaught conversion error aborts the whole
pass, exactly as the Python exception aborts the loop. -/
def parse_ba_assignments (stmts : List Stmt) :
    Except String (List (String × String × String × String)) :=
  stmts.foldlM
    (fun acc s =>
      match s with
      | .ba attrName rest => (processBa attrName rest).map (fun r => acc ++ [r])
      | _ => pure acc)
    []

/-- The message record extracted from one statement, if it is a message
declaration. -/
def msgOf : Stmt → Option Message
  | .bo raw name dlc tx => some (mkMessage raw name dlc tx)
  | _ => none

/-- A concrete signal declaration used by several witnesses, the signal of
the end-to-end example of the specification. -/
def sigDeclA : SigDecl :=
  ⟨"SigA", "", 0, 8, "1", "+", "1", "0", "0", "255", "", "ECU1"⟩

/-! ## Lemmas about the association-list dictionaries -/

theorem dictLookup_dictSet_self {α β : Type} [DecidableEq α]
    (d : List (α × β)) (k : α) (v : β) : dictLookup (dictSet d k v) k = some v := by
  induction d with
  | nil => simp [dictSet, dictLookup]
  | cons p t ih =>
    obtain ⟨k', v'⟩ := p
    by_cases hk : k' = k
    · subst hk
      simp [dictSet, dictLookup]
    · simp [dictSet, dictLookup, hk, ih]

theorem dictLookup_dictSet_ne {α β : Type} [DecidableEq α]
    (d : List (α × β)) (k k' : α) (v : β) (h : k' ≠ k) :
    dictLookup (dictSet d k v) k' = dictLookup d k' := by
  induction d with
  | nil => simp [dictSet, dictLookup, Ne.symm h]
  | cons p t ih =>
    obtain ⟨a, b⟩ := p
    by_cases ha : a = k
    · subst ha
      simp [dictSet, dictLookup, Ne.symm h]
    · simp only [dictSet, if_neg ha, dictLookup]
      by_cases ha' : a = k'
      · simp [ha']
      · simp [ha', ih]

theorem dictMem_dictSet {α β : Type} [DecidableEq α]
    (d : List (α × β)) (k k' : α) (v : β) :
    dictMem (dictSet d k v) k' = true ↔ k' = k ∨ dictMem d k' = true := by
  by_cases h : k' = k
  · subst h
    simp [dictMem, dictLookup_dictSet_self]
  · simp [dictMem, dictLookup_dictSet_ne d k k' v h, h]

theorem mem_dictSet {α β : Type} [DecidableEq α]
    {d : List (α × β)} {k : α} {v : β} {p : α × β} (h : p ∈ dictSet d k v) :
    p = (k, v) ∨ p ∈ d := by
  induction d with
  | nil => simpa [dictSet] using h
  | cons q t ih =>
    obtain ⟨a, b⟩ := q
    by_cases ha : a = k
    · subst ha
      rcases (by simpa [dictSet] using h : p = (a, v) ∨ p ∈ t) with h1 | h1
      · exact Or.inl h1
      · exact Or.inr (List.mem_cons_of_mem _ h1)
    · rcases (by simpa [dictSet, ha] using h : p = (a, b) ∨ p ∈ dictSet t k v) with h1 | h1
      · exact Or.inr (by simp [h1])
      · rcases ih h1 with h2 | h2
        · exact Or.inl h2
        · exact Or.inr (List.mem_cons_of_mem _ h2)

theorem dictLookup_dictAppendSig_self (d : List (Nat × List Signal)) (k : Nat) (s : Signal) :
    dictLookup (dictAppendSig d k s) k = (dictLookup d k).map (fun l => l ++ [s]) := by
  induction d with
  | nil => simp [dictAppendSig, dictLookup]
  | cons p t ih =>
    obtain ⟨a, b⟩ := p
    show dictLookup ((if a = k then (a, b ++ [s]) else (a, b)) :: dictAppendSig t k s) k = _
    by_cases ha : a = k
    · subst ha
      rw [if_pos rfl]
      show (if a = a then some (b ++ [s]) else dictLookup (dictAppendSig t a s) a) = _
      rw [if_pos rfl]
      show _ = Option.map _ (if a = a then some b else dictLookup t a)
      rw [if_pos rfl]
      rfl
    · rw [if_neg ha]
      show (if a = k then some b else dictLookup (dictAppendSig t k s) k) = _
      rw [if_neg ha, ih]
      show _ = Option.map _ (if a = k then some b else dictLookup t k)
      rw [if_neg ha]

theorem dictLookup_dictAppendSig_ne (d : List (Nat × List Signal)) (k k' : Nat) (s : Signal)
    (h : k' ≠ k) :
    dictLookup (dictAppendSig d k s) k' = dictLookup d k' := by
  induction d with
  | nil => simp [dictAppendSig, dictLookup]
  | cons p t ih =>
    obtain ⟨a, b⟩ := p
    show dictLookup ((if a = k then (a, b ++ [s]) else (a, b)) :: dictAppendSig t k s) k' = _
    by_cases ha : a = k
    · subst ha
      rw [if_pos rfl]
      show (if a = k' then some (b ++ [s]) else dictLookup (dictAppendSig t a s) k') = _
      rw [if_neg (Ne.symm h), ih]
      show _ = (if a = k' then some b else dictLookup t k')
      rw [if_neg (Ne.symm h)]
    · rw [if_neg ha]
      show (if a = k' then some b else dictLookup (dictAppendSig t k s) k') = _
      rw [ih]
      show _ = (if a = k' then some b else dictLookup t k')
      rfl

theorem dictMem_dictAppendSig (d : List (Nat × List Signal)) (k k' : Nat) (s : Signal) :
    dictMem (dictAppendSig d k s) k' = dictMem d k' := by
  by_cases h : k' = k
  · subst h
    simp [dictMem, dictLookup_dictAppendSig_self]
  · simp [dictMem, dictLookup_dictAppendSig_ne d k k' s h]

theorem mem_dictAppendSig {d : List (Nat × List Signal)} {k : Nat} {s : Signal}
    {p : Nat × List Signal} (h : p ∈ dictAppendSig d k s) :
    ∃ q ∈ d, p = if q.1 = k then (q.1, q.2 ++ [s]) else q := by
  rcases List.mem_map.mp h with ⟨q, hq, hpq⟩
  exact ⟨q, hq, hpq.symm⟩

theorem dictLookup_foldl_dictSet_of_ne {l : List (Int × String)} {k : Int}
    (h : ∀ q ∈ l, q.1 ≠ k) (d : List (Int × String)) :
    dictLookup (l.foldl (fun d p => dictSet d p.1 p.2) d) k = dictLookup d k := by
  induction l generalizing d with
  | nil => rfl
  | cons q t ih =>
    have hq : q.1 ≠ k := h q (List.mem_cons_self q t)
    have ht : ∀ r ∈ t, r.1 ≠ k := fun r hr => h r (List.mem_cons_of_mem _ hr)
    simp only [List.foldl_cons]
    rw [ih ht, dictLookup_dictSet_ne _ _ _ _ (Ne.symm hq)]

/-! ## Lemmas about the two phases of the message and signal pass -/

theorem messages_processSg (seen : List Stmt) (d : SigDecl) (st : DbcState) :
    (processSg seen d st).messages = st.messages := by
  unfold processSg
  cases lastBoId seen with
  | none => rfl
  | some m =>
    by_cases hm : dictMem st.signals m
    · simp [hm]
    · simp [hm]

theorem messages_parseSignalsPhase (seen rest : List Stmt) (st : DbcState) :
    (parseSignalsPhase seen rest st).messages = st.messages := by
  induction rest generalizing seen st with
  | nil => rfl
  | cons s t ih =>
    show (parseSignalsPhase (seen ++ [s]) t _).messages = _
    cases s with
    | sg d => rw [ih, messages_processSg]
    | bo raw name dlc tx => rw [ih]
    | valTable name vals => rw [ih]
    | valEntry body => rw [ih]
    | cmBo raw text => rw [ih]
    | cmSg raw sig text => rw [ih]
    | cmBu node text => rw [ih]
    | cmEv env text => rw [ih]
    | ba attrName r => rw [ih]

theorem messages_foldl_msgStep (l : List Stmt) (st : DbcState) :
    (l.foldl msgStep st).messages = st.messages ++ l.filterMap msgOf := by
  induction l generalizing st with
  | nil => simp
  | cons s t ih =>
    cases s with
    | bo raw name dlc tx =>
      simp only [List.foldl_cons, ih, msgStep, List.filterMap_cons, msgOf]
      simp [List.append_assoc]
    | sg d => simpa [msgStep, msgOf] using ih st
    | valTable name vals => simpa [msgStep, msgOf] using ih st
    | valEntry body => simpa [msgStep, msgOf] using ih st
    | cmBo raw text => simpa [msgStep, msgOf] using ih st
    | cmSg raw sig text => simpa [msgStep, msgOf] using ih st
    | cmBu node text => simpa [msgStep, msgOf] using ih st
    | cmEv env text => simpa [msgStep, msgOf] using ih st
    | ba attrName r => simpa [msgStep, msgOf] using ih st

theorem messages_parse (stmts : List Stmt) :
    (parse_messages_and_signals stmts).messages = stmts.filterMap msgOf := by
  unfold parse_messages_and_signals parseMessagesPhase
  rw [messages_parseSignalsPhase, messages_foldl_msgStep]
  rfl

theorem mkMessage_id (raw dlc : Nat) (name tx : String) :
    (mkMessage raw name dlc tx).id = normId raw := rfl

theorem dictMem_processSg (seen : List Stmt) (d : SigDecl) (st : DbcState) (k : Nat) :
    dictMem (processSg seen d st).signals k = dictMem st.signals k := by
  unfold processSg
  cases lastBoId seen with
  | none => rfl
  | some m =>
    by_cases hm : dictMem st.signals m
    · simp [hm, dictMem_dictAppendSig]
    · simp [hm]

theorem dictMem_parseSignalsPhase (seen rest : List Stmt) (st : DbcState) (k : Nat) :
    dictMem (parseSignalsPhase seen rest st).signals k = dictMem st.signals k := by
  induction rest generalizing seen st with
  | nil => rfl
  | cons s t ih =>
    show dictMem (parseSignalsPhase (seen ++ [s]) t _).signals k = _
    cases s with
    | sg d => rw [ih, dictMem_processSg]
    | bo raw name dlc tx => rw [ih]
    | valTable name vals => rw [ih]
    | valEntry body => rw [ih]
    | cmBo raw text => rw [ih]
    | cmSg raw sig text => rw [ih]
    | cmBu node text => rw [ih]
    | cmEv env text => rw [ih]
    | ba attrName r => rw [ih]

theorem keys_foldl_msgStep (l : List Stmt) (st : DbcState)
    (h : ∀ k, dictMem st.signals k = true ↔ ∃ m ∈ st.messages, m.id = k) :
    ∀ k, dictMem (l.foldl msgStep st).signals k = true ↔
      ∃ m ∈ (l.foldl msgStep st).messages, m.id = k := by
  induction l generalizing st with
  | nil => exact h
  | cons s t ih =>
    cases s with
    | bo raw name dlc tx =>
      refine ih _ (fun k => ?_)
      show dictMem (dictSet st.signals (mkMessage raw name dlc tx).id []) k = true ↔
        ∃ m ∈ st.messages ++ [mkMessage raw name dlc tx], m.id = k
      rw [dictMem_dictSet]
      constructor
      · rintro (hk | hk)
        · exact ⟨mkMessage raw name dlc tx, by simp, hk.symm⟩
        · obtain ⟨m, hm, hid⟩ := (h k).mp hk
          exact ⟨m, by simp [hm], hid⟩
      · rintro ⟨m, hm, hid⟩
        rcases List.mem_append.mp hm with hm | hm
        · exact Or.inr ((h k).mpr ⟨m, hm, hid⟩)
        · rcases List.mem_singleton.mp hm with rfl
          exact Or.inl hid.symm
    | sg d => exact ih st h
    | valTable name vals => exact ih st h
    | valEntry body => exact ih st h
    | cmBo raw text => exact ih st h
    | cmSg raw sig text => exact ih st h
    | cmBu node text => exact ih st h
    | cmEv env text => exact ih st h
    | ba attrName r => exact ih st h

theorem keys_parseMessagesPhase (stmts : List Stmt) (k : Nat) :
    dictMem (parseMessagesPhase stmts).signals k = true ↔
      ∃ m ∈ (parseMessagesPhase stmts).messages, m.id = k := by
  exact keys_foldl_msgStep stmts ⟨[], []⟩ (fun k => by simp [dictMem, dictLookup]) k

theorem dictMem_parseMessagesPhase_of_bo {stmts : List Stmt} {raw dlc : Nat}
    {name tx : String} (h : Stmt.bo raw name dlc tx ∈ stmts) :
    dictMem (parseMessagesPhase stmts).signals (normId raw) = true := by
  refine (keys_parseMessagesPhase stmts (normId raw)).mpr ?_
  refine ⟨mkMessage raw name dlc tx, ?_, rfl⟩
  show mkMessage raw name dlc tx ∈ (stmts.foldl msgStep ⟨[], []⟩).messages
  rw [messages_foldl_msgStep]
  simp only [List.nil_append]
  exact List.mem_filterMap.mpr ⟨Stmt.bo raw name dlc tx, h, rfl⟩

theorem lastBoId_append (l l' : List Stmt) :
    lastBoId (l ++ l') = ((l ++ l').foldl (fun acc s =>
      match s with
      | .bo raw _ _ _ => some (normId raw)
      | _ => acc) none) := rfl

theorem lastBoId_snoc (l : List Stmt) (s : Stmt) :
    lastBoId (l ++ [s]) =
      (match s with
       | .bo raw _ _ _ => some (normId raw)
       | _ => lastBoId l) := by
  unfold lastBoId
  rw [List.foldl_append]
  rfl

theorem lastBoId_some {l : List Stmt} {m : Nat} (h : lastBoId l = some m) :
    ∃ raw name dlc tx, Stmt.bo raw name dlc tx ∈ l ∧ normId raw = m := by
  suffices hgen : ∀ (l : List Stmt) (acc : Option Nat), (l.foldl (fun acc s =>
      match s with
      | .bo raw _ _ _ => some (normId raw)
      | _ => acc) acc) = some m →
      (∃ raw name dlc tx, Stmt.bo raw name dlc tx ∈ l ∧ normId raw = m) ∨ acc = some m by
    rcases hgen l none h with hl | hl
    · exact hl
    · exact absurd hl (by simp)
  intro l
  induction l with
  | nil => exact fun acc h => Or.inr h
  | cons s t ih =>
    intro acc h
    cases s with
    | bo raw name dlc tx =>
      rcases ih (some (normId raw)) h with hl | hl
      · obtain ⟨r, n, dl, tr, hmem, hid⟩ := hl
        exact Or.inl ⟨r, n, dl, tr, List.mem_cons_of_mem _ hmem, hid⟩
      · exact Or.inl ⟨raw, name, dlc, tx, List.mem_cons_self _ _, by injection hl⟩
    | sg d =>
      rcases ih acc h with hl | hl
      · obtain ⟨r, n, dl, tr, hmem, hid⟩ := hl
        exact Or.inl ⟨r, n, dl, tr, List.mem_cons_of_mem _ hmem, hid⟩
      · exact Or.inr hl
    | valTable name vals =>
      rcases ih acc h with hl | hl
      · obtain ⟨r, n, dl, tr, hmem, hid⟩ := hl
        exact Or.inl ⟨r, n, dl, tr, List.mem_cons_of_mem _ hmem, hid⟩
      · exact Or.inr hl
    | valEntry body =>
      rcases ih acc h with hl | hl
      · obtain ⟨r, n, dl, tr, hmem, hid⟩ := hl
        exact Or.inl ⟨r, n, dl, tr, List.mem_cons_of_mem _ hmem, hid⟩
      · exact Or.inr hl
    | cmBo raw text =>
      rcases ih acc h with hl | hl
      · obtain ⟨r, n, dl, tr, hmem, hid⟩ := hl
        exact Or.inl ⟨r, n, dl, tr, List.mem_cons_of_mem _ hmem, hid⟩
      · exact Or.inr hl
    | cmSg raw sig text =>
      rcases ih acc h with hl | hl
      · obtain ⟨r, n, dl, tr, hmem, hid⟩ := hl
        exact Or.inl ⟨r, n, dl, tr, List.mem_cons_of_mem _ hmem, hid⟩
      · exact Or.inr hl
    | cmBu node text =>
      rcases ih acc h with hl | hl
      · obtain ⟨r, n, dl, tr, hmem, hid⟩ := hl
        exact Or.inl ⟨r, n, dl, tr, List.mem_cons_of_mem _ hmem, hid⟩
      · exact Or.inr hl
    | cmEv env text =>
      rcases ih acc h with hl | hl
      · obtain ⟨r, n, dl, tr, hmem, hid⟩ := hl
        exact Or.inl ⟨r, n, dl, tr, List.mem_cons_of_mem _ hmem, hid⟩
      · exact Or.inr hl
    | ba attrName r =>
      rcases ih acc h with hl | hl
      · obtain ⟨rr, n, dl, tr, hmem, hid⟩ := hl
        exact Or.inl ⟨rr, n, dl, tr, List.mem_cons_of_mem _ hmem, hid⟩
      · exact Or.inr hl

theorem lastBoId_none_of_no_bo {l : List Stmt} (h : ∀ s ∈ l, isBo s = false) :
    lastBoId l = none := by
  suffices hgen : ∀ acc : Option Nat, (l.foldl (fun acc s =>
      match s with
      | .bo raw _ _ _ => some (normId raw)
      | _ => acc) acc) = acc by
    exact hgen none
  induction l with
  | nil => exact fun acc => rfl
  | cons s t ih =>
    intro acc
    have hs : isBo s = false := h s (List.mem_cons_self _ _)
    have ht : ∀ s ∈ t, isBo s = false := fun s hst => h s (List.mem_cons_of_mem _ hst)
    cases s with
    | bo raw name dlc tx => exact absurd hs (by simp [isBo])
    | sg d => exact ih ht acc
    | valTable name vals => exact ih ht acc
    | valEntry body => exact ih ht acc
    | cmBo raw text => exact ih ht acc
    | cmSg raw sig text => exact ih ht acc
    | cmBu node text => exact ih ht acc
    | cmEv env text => exact ih ht acc
    | ba attrName r => exact ih ht acc

theorem parseSignalsPhase_append (xs ys seen : List Stmt) (st : DbcState) :
    parseSignalsPhase seen (xs ++ ys) st =
      parseSignalsPhase (seen ++ xs) ys (parseSignalsPhase seen xs st) := by
  induction xs generalizing seen st with
  | nil => simp [parseSignalsPhase]
  | cons s t ih =>
    show parseSignalsPhase (seen ++ [s]) (t ++ ys) _ = _
    rw [ih]
    simp [parseSignalsPhase, List.append_assoc]

theorem processSg_congr {seen₁ seen₂ : List Stmt} (d : SigDecl) (st : DbcState)
    (h : lastBoId seen₁ = lastBoId seen₂) :
    processSg seen₁ d st = processSg seen₂ d st := by
  unfold processSg
  rw [h]

theorem parseSignalsPhase_congr {seen₁ seen₂ : List Stmt} (rest : List Stmt) (st : DbcState)
    (h : lastBoId seen₁ = lastBoId seen₂) :
    parseSignalsPhase seen₁ rest st = parseSignalsPhase seen₂ rest st := by
  induction rest generalizing seen₁ seen₂ st with
  | nil => rfl
  | cons s t ih =>
    have hsnoc : lastBoId (seen₁ ++ [s]) = lastBoId (seen₂ ++ [s]) := by
      rw [lastBoId_snoc, lastBoId_snoc]
      cases s <;> simp [h]
    cases s with
    | sg d =>
      show parseSignalsPhase (seen₁ ++ [Stmt.sg d]) t (processSg seen₁ d st)
        = parseSignalsPhase (seen₂ ++ [Stmt.sg d]) t (processSg seen₂ d st)
      rw [processSg_congr d st h]
      exact ih _ hsnoc
    | bo raw name dlc tx => exact ih _ hsnoc
    | valTable name vals => exact ih _ hsnoc
    | valEntry body => exact ih _ hsnoc
    | cmBo raw text => exact ih _ hsnoc
    | cmSg raw sig text => exact ih _ hsnoc
    | cmBu node text => exact ih _ hsnoc
    | cmEv env text => exact ih _ hsnoc
    | ba attrName r => exact ih _ hsnoc

theorem sig_mem_mono_processSg {st : DbcState} {k : Nat} {x : Signal}
    (seen : List Stmt) (d : SigDecl) (h : x ∈ sigListAt st k) :
    x ∈ sigListAt (processSg seen d st) k := by
  unfold processSg
  cases lastBoId seen with
  | none => exact h
  | some m =>
    by_cases hm : dictMem st.signals m
    · simp only [hm, if_pos]
      unfold sigListAt at h ⊢
      by_cases hk : k = m
      · subst hk
        rw [dictLookup_dictAppendSig_self]
        cases hl : dictLookup st.signals k with
        | none => rw [hl] at h; simp at h
        | some l =>
          rw [hl] at h
          simp only [Option.map_some, Option.getD_some] at *
          exact List.mem_append.mpr (Or.inl h)
      · rw [dictLookup_dictAppendSig_ne _ _ _ _ hk]
        exact h
    · simp only [hm]
      exact h

theorem sig_mem_mono_parseSignalsPhase {st : DbcState} {k : Nat} {x : Signal}
    (seen rest : List Stmt) (h : x ∈ sigListAt st k) :
    x ∈ sigListAt (parseSignalsPhase seen rest st) k := by
  induction rest generalizing seen st with
  | nil => exact h
  | cons s t ih =>
    show x ∈ sigListAt (parseSignalsPhase (seen ++ [s]) t _) k
    cases s with
    | sg d => exact ih _ (sig_mem_mono_processSg seen d h)
    | bo raw name dlc tx => exact ih _ h
    | valTable name vals => exact ih _ h
    | valEntry body => exact ih _ h
    | cmBo raw text => exact ih _ h
    | cmSg raw sig text => exact ih _ h
    | cmBu node text => exact ih _ h
    | cmEv env text => exact ih _ h
    | ba attrName r => exact ih _ h

theorem sig_mem_processSg_self {st : DbcState} {m : Nat} (seen : List Stmt) (d : SigDecl)
    (hbo : lastBoId seen = some m) (hmem : dictMem st.signals m = true) :
    mkSignal m d ∈ sigListAt (processSg seen d st) m := by
  unfold processSg
  rw [hbo]
  simp only [hmem, if_pos]
  unfold sigListAt
  rw [dictLookup_dictAppendSig_self]
  cases hl : dictLookup st.signals m with
  | none => rw [dictMem, hl] at hmem; simp at hmem
  | some l => simp

theorem sigsOwn_foldl_msgStep (l : List Stmt) (st : DbcState)
    (h : ∀ p ∈ st.signals, ∀ s ∈ p.2, s.msg_id = p.1) :
    ∀ p ∈ (l.foldl msgStep st).signals, ∀ s ∈ p.2, s.msg_id = p.1 := by
  induction l generalizing st with
  | nil => exact h
  | cons s t ih =>
    cases s with
    | bo raw name dlc tx =>
      refine ih _ (fun p hp => ?_)
      rcases mem_dictSet hp with hp | hp
      · subst hp
        intro s hs
        simp at hs
      · exact h p hp
    | sg d => exact ih st h
    | valTable name vals => exact ih st h
    | valEntry body => exact ih st h
    | cmBo raw text => exact ih st h
    | cmSg raw sig text => exact ih st h
    | cmBu node text => exact ih st h
    | cmEv env text => exact ih st h
    | ba attrName r => exact ih st h

theorem sigsOwn_processSg (seen : List Stmt) (d : SigDecl) (st : DbcState)
    (h : ∀ p ∈ st.signals, ∀ s ∈ p.2, s.msg_id = p.1) :
    ∀ p ∈ (processSg seen d st).signals, ∀ s ∈ p.2, s.msg_id = p.1 := by
  unfold processSg
  cases lastBoId seen with
  | none => exact h
  | some m =>
    by_cases hm : dictMem st.signals m
    · simp only [hm, if_pos]
      intro p hp
      rcases mem_dictAppendSig hp with ⟨q, hq, hpq⟩
      by_cases hqm : q.1 = m
      · rw [if_pos hqm] at hpq
        subst hpq
        intro s hs
        rcases List.mem_append.mp hs with hs | hs
        · exact h q hq s hs
        · rcases List.mem_singleton.mp hs with rfl
          exact hqm.symm
      · rw [if_neg hqm] at hpq
        subst hpq
        exact h _ hq
    · simp only [hm]
      exact h

theorem sigsOwn_parseSignalsPhase (seen rest : List Stmt) (st : DbcState)
    (h : ∀ p ∈ st.signals, ∀ s ∈ p.2, s.msg_id = p.1) :
    ∀ p ∈ (parseSignalsPhase seen rest st).signals, ∀ s ∈ p.2, s.msg_id = p.1 := by
  induction rest generalizing seen st with
  | nil => exact h
  | cons s t ih =>
    cases s with
    | sg d =>
      show ∀ p ∈ (parseSignalsPhase (seen ++ [Stmt.sg d]) t (processSg seen d st)).signals, _
      exact ih _ _ (sigsOwn_processSg seen d st h)
    | bo raw name dlc tx => exact ih _ st h
    | valTable name vals => exact ih _ st h
    | valEntry body => exact ih _ st h
    | cmBo raw text => exact ih _ st h
    | cmSg raw sig text => exact ih _ st h
    | cmBu node text => exact ih _ st h
    | cmEv env text => exact ih _ st h
    | ba attrName r => exact ih _ st h

/-! ## Lemmas about the two VAL underscore patterns -/

theorem digit_not_space {c : Char} (h : isPyDigit c = true) : isPySpace c = false := by
  simp only [isPyDigit, Bool.and_eq_true, decide_eq_true_eq] at h
  simp only [isPySpace, Bool.or_eq_false_iff, decide_eq_false_iff_not]
  omega

theorem takeWhile_notSpace_of_digits (cs : List Char)
    (h : ((cs.dropWhile isPyDigit).takeWhile isPySpace).isEmpty = false) :
    cs.takeWhile notSpace = cs.takeWhile isPyDigit ∧
      cs.dropWhile notSpace = cs.dropWhile isPyDigit := by
  induction cs with
  | nil => simp at h
  | cons c t ih =>
    by_cases hd : isPyDigit c = true
    · have hns : notSpace c = true := by
        simp [notSpace, digit_not_space hd]
      rw [List.dropWhile_cons_of_pos hd] at h
      obtain ⟨h1, h2⟩ := ih h
      rw [List.takeWhile_cons_of_pos hns, List.takeWhile_cons_of_pos hd,
        List.dropWhile_cons_of_pos hns, List.dropWhile_cons_of_pos hd, h1, h2]
      exact ⟨rfl, rfl⟩
    · rw [List.dropWhile_cons_of_neg hd] at h
      have hsp : isPySpace c = true := by
        by_contra hsp
        rw [List.takeWhile_cons_of_neg hsp] at h
        simp at h
      have hns : ¬ notSpace c = true := by
        simp [notSpace, hsp]
      rw [List.takeWhile_cons_of_neg hns, List.takeWhile_cons_of_neg hd,
        List.dropWhile_cons_of_neg hns, List.dropWhile_cons_of_neg hd]
      exact ⟨rfl, rfl⟩

theorem isEmpty_false_of_takeWhile {p : Char → Bool} {l : List Char}
    (h : (l.takeWhile p).isEmpty = false) : l.isEmpty = false := by
  cases l with
  | nil => simp at h
  | cons c t => rfl

theorem splitValSignal_env {body ds sig vs : String}
    (h : splitValSignal body = some (ds, sig, vs)) :
    (∃ r, splitValEnv body = some (ds, r)) ∧ isPyDigitStr ds = true := by
  simp only [splitValSignal] at h
  by_cases hc : ((body.toList.takeWhile isPyDigit).isEmpty
      || (((body.toList.dropWhile isPyDigit).takeWhile isPySpace)).isEmpty
      || (((body.toList.dropWhile isPyDigit).dropWhile isPySpace).takeWhile notSpace).isEmpty
      || ((((body.toList.dropWhile isPyDigit).dropWhile isPySpace).dropWhile notSpace).takeWhile isPySpace).isEmpty
      || ((((body.toList.dropWhile isPyDigit).dropWhile isPySpace).dropWhile notSpace).dropWhile isPySpace).isEmpty) = true
  · rw [if_pos hc] at h
    cases h
  · rw [if_neg hc] at h
    simp only [Bool.or_eq_true, not_or, Bool.not_eq_true] at hc
    obtain ⟨⟨⟨⟨hds, hws1⟩, htok⟩, hws2⟩, hr4⟩ := hc
    obtain ⟨htw, hdw⟩ := takeWhile_notSpace_of_digits body.toList hws1
    have hinj := Option.some.inj h
    have hds_eq : ds = String.mk (body.toList.takeWhile isPyDigit) :=
      (congrArg Prod.fst hinj).symm
    constructor
    · refine ⟨String.mk ((body.toList.dropWhile isPyDigit).dropWhile isPySpace), ?_⟩
      simp only [splitValEnv, htw, hdw]
      have hr2 : (((body.toList.dropWhile isPyDigit).dropWhile isPySpace)).isEmpty = false :=
        isEmpty_false_of_takeWhile htok
      rw [if_neg ?_]
      · rw [hds_eq]
      · simp only [Bool.or_eq_true, not_or, Bool.not_eq_true]
        exact ⟨⟨hds, hws1⟩, hr2⟩
    · rw [hds_eq]
      show (!(body.toList.takeWhile isPyDigit).isEmpty
        && (body.toList.takeWhile isPyDigit).all isPyDigit) = true
      rw [hds, List.all_takeWhile]
      rfl

/-! ## The claims -/

/-- C1: for every raw message identifier parsed from a message
declaration, the extracted message record is in the message list, and if
the raw value is at least 0x80000000 the recorded ID is the raw value
minus 0x80000000 with the extended flag true, while a smaller raw value
is recorded unchanged with the extended flag false. -/
theorem claimExtendedIdNormalization (pre post : List Stmt) (raw dlc : Nat)
    (name tx : String) :
    mkMessage raw name dlc tx ∈
      (parse_messages_and_signals (pre ++ Stmt.bo raw name dlc tx :: post)).messages
    ∧ (0x80000000 ≤ raw →
        (mkMessage raw name dlc tx).id = raw - 0x80000000
        ∧ (mkMessage raw name dlc tx).is_extended = true)
    ∧ (raw < 0x80000000 →
        (mkMessage raw name dlc tx).id = raw
        ∧ (mkMessage raw name dlc tx).is_extended = false) := by
  refine ⟨?_, ?_, ?_⟩
  · rw [messages_parse]
    exact List.mem_filterMap.mpr ⟨Stmt.bo raw name dlc tx, by simp, rfl⟩
  · intro h
    constructor
    · show (if 0x80000000 ≤ raw then raw - 0x80000000 else raw) = raw - 0x80000000
      rw [if_pos h]
    · show decide (0x80000000 ≤ raw) = true
      exact decide_eq_true h
  · intro h
    constructor
    · show (if 0x80000000 ≤ raw then raw - 0x80000000 else raw) = raw
      rw [if_neg (by omega)]
    · show decide (0x80000000 ≤ raw) = false
      exact decide_eq_false (by omega)

/-- Witness for C1 at the raw identifiers 2147483748 and 100. -/
theorem claimExtendedIdNormalizationWitness :
    ((mkMessage 2147483748 "MsgE" 8 "ECU1").id = 100
      ∧ (mkMessage 2147483748 "MsgE" 8 "ECU1").is_extended = true)
    ∧ ((mkMessage 100 "Msg1" 8 "ECU1").id = 100
      ∧ (mkMessage 100 "Msg1" 8 "ECU1").is_extended = false) := by
  constructor
  · have h := (claimExtendedIdNormalization [] [] 2147483748 8 "MsgE" "ECU1").2.1
      (by norm_num)
    exact ⟨h.1.trans (by norm_num), h.2⟩
  · exact (claimExtendedIdNormalization [] [] 100 8 "Msg1" "ECU1").2.2 (by norm_num)

/-- C2: a signal declaration with at least one preceding message
declaration is attributed to the message whose declaration occurs latest
among the message declarations before it; in particular, with messages
100 and 200 declared in this order and a signal after both, the signal is
stored under 200 and the list of message 100 stays empty. -/
theorem claimNearestPrecedingAssociation (pre post : List Stmt) (d : SigDecl) (m : Nat)
    (h : lastBoId pre = some m) :
    mkSignal m d ∈ sigListAt (parse_messages_and_signals (pre ++ Stmt.sg d :: post)) m
    ∧ (parse_messages_and_signals
        [Stmt.bo 100 "Msg1" 8 "ECU1", Stmt.bo 200 "Msg2" 8 "ECU1", Stmt.sg d]).signals
      = [(100, []), (200, [mkSignal 200 d])] := by
  constructor
  · obtain ⟨raw, n, dl, tr, hmem, hid⟩ := lastBoId_some h
    have hkey : dictMem (parseMessagesPhase (pre ++ Stmt.sg d :: post)).signals m = true := by
      rw [← hid]
      exact @dictMem_parseMessagesPhase_of_bo (pre ++ Stmt.sg d :: post) raw dl n tr
        (List.mem_append.mpr (Or.inl hmem))
    unfold parse_messages_and_signals
    rw [show pre ++ Stmt.sg d :: post = pre ++ ([Stmt.sg d] ++ post) from rfl,
      parseSignalsPhase_append]
    simp only [List.nil_append]
    show mkSignal m d ∈ sigListAt (parseSignalsPhase (pre ++ [Stmt.sg d]) post
      (processSg pre d (parseSignalsPhase [] pre
        (parseMessagesPhase (pre ++ ([Stmt.sg d] ++ post)))))) m
    refine sig_mem_mono_parseSignalsPhase _ _ ?_
    refine sig_mem_processSg_self pre d h ?_
    rw [dictMem_parseSignalsPhase]
    exact hkey
  · rfl

/-- Witness for C2: messages 100 and 200 followed by the example signal. -/
theorem claimNearestPrecedingAssociationWitness :
    mkSignal 200 sigDeclA ∈ sigListAt (parse_messages_and_signals
      ([Stmt.bo 100 "Msg1" 8 "ECU1", Stmt.bo 200 "Msg2" 8 "ECU1"]
        ++ Stmt.sg sigDeclA :: [])) 200 :=
  (claimNearestPrecedingAssociation
    [Stmt.bo 100 "Msg1" 8 "ECU1", Stmt.bo 200 "Msg2" 8 "ECU1"] [] sigDeclA 200 rfl).1

/-- C5: a signal declaration with no message declaration before it is
discarded: the parse result is the same as if the declaration were absent,
and in particular parsing does not fail. -/
theorem claimOrphanSignalDiscarded (pre post : List Stmt) (d : SigDecl)
    (h : ∀ s ∈ pre, isBo s = false) :
    parse_messages_and_signals (pre ++ Stmt.sg d :: post)
      = parse_messages_and_signals (pre ++ post) := by
  have hbo : lastBoId pre = none := lastBoId_none_of_no_bo h
  have hproc : ∀ st, processSg pre d st = st := by
    intro st
    unfold processSg
    rw [hbo]
  have hphase1 : parseMessagesPhase (pre ++ Stmt.sg d :: post)
      = parseMessagesPhase (pre ++ post) := by
    unfold parseMessagesPhase
    rw [List.foldl_append, List.foldl_append]
    rfl
  unfold parse_messages_and_signals
  rw [hphase1]
  have hsplitL : parseSignalsPhase [] (pre ++ Stmt.sg d :: post)
        (parseMessagesPhase (pre ++ post))
      = parseSignalsPhase pre ([Stmt.sg d] ++ post)
          (parseSignalsPhase [] pre (parseMessagesPhase (pre ++ post))) := by
    rw [show pre ++ Stmt.sg d :: post = pre ++ ([Stmt.sg d] ++ post) from rfl,
      parseSignalsPhase_append]
    simp only [List.nil_append]
  have hsplitR : parseSignalsPhase [] (pre ++ post) (parseMessagesPhase (pre ++ post))
      = parseSignalsPhase pre post
          (parseSignalsPhase [] pre (parseMessagesPhase (pre ++ post))) := by
    rw [parseSignalsPhase_append]
    simp only [List.nil_append]
  rw [hsplitL, hsplitR]
  calc parseSignalsPhase pre ([Stmt.sg d] ++ post)
        (parseSignalsPhase [] pre (parseMessagesPhase (pre ++ post)))
      = parseSignalsPhase (pre ++ [Stmt.sg d]) post
          (processSg pre d (parseSignalsPhase [] pre (parseMessagesPhase (pre ++ post)))) := rfl
    _ = parseSignalsPhase (pre ++ [Stmt.sg d]) post
          (parseSignalsPhase [] pre (parseMessagesPhase (pre ++ post))) := by rw [hproc]
    _ = parseSignalsPhase pre post
          (parseSignalsPhase [] pre (parseMessagesPhase (pre ++ post))) :=
        parseSignalsPhase_congr post _ (by rw [lastBoId_snoc])

/-- Witness for C5: a comment line, the orphan signal, then a message. -/
theorem claimOrphanSignalDiscardedWitness :
    parse_messages_and_signals
        ([Stmt.cmBo 5 "note"] ++ Stmt.sg sigDeclA :: [Stmt.bo 100 "Msg1" 8 "ECU1"])
      = parse_messages_and_signals ([Stmt.cmBo 5 "note"] ++ [Stmt.bo 100 "Msg1" 8 "ECU1"]) :=
  claimOrphanSignalDiscarded [Stmt.cmBo 5 "note"] [Stmt.bo 100 "Msg1" 8 "ECU1"] sigDeclA
    (by decide)

/-- C8: a message comment produces a record with target the normalized ID
rendered in decimal and the quoted text, for every surrounding input and
so independently of any message declarations in it. -/
theorem claimMessageCommentUnconditional (stmts : List Stmt) (raw : Nat) (text : String)
    (h : Stmt.cmBo raw text ∈ stmts) :
    ("BO", toString (normId raw), text) ∈ parse_comments stmts := by
  unfold parse_comments
  refine List.mem_append.mpr (Or.inl (List.mem_append.mpr (Or.inl
    (List.mem_append.mpr (Or.inl ?_)))))
  exact List.mem_filterMap.mpr ⟨Stmt.cmBo raw text, h, rfl⟩

/-- Witness for C8 at the comment line for message 100 with text hello,
with no message declaration anywhere in the input. -/
theorem claimMessageCommentUnconditionalWitness :
    ("BO", "100", "hello") ∈ parse_comments [Stmt.cmBo 100 "hello"] := by
  have h100 : toString (normId 100) = "100" := rfl
  rw [show ("100" : String) = toString (normId 100) from h100.symm]
  exact claimMessageCommentUnconditional [Stmt.cmBo 100 "hello"] 100 "hello" (by decide)

/-- C10: after the message and signal pass, a key is in the signals dict
exactly when it is the normalized ID of an extracted message, and every
stored signal carries the message ID of the entry it is stored under. -/
theorem claimSignalsKeyInvariant (stmts : List Stmt) :
    (∀ k : Nat, dictMem (parse_messages_and_signals stmts).signals k = true ↔
        ∃ m ∈ (parse_messages_and_signals stmts).messages, m.id = k)
    ∧ (∀ p ∈ (parse_messages_and_signals stmts).signals, ∀ s ∈ p.2, s.msg_id = p.1) := by
  constructor
  · intro k
    unfold parse_messages_and_signals
    rw [dictMem_parseSignalsPhase, messages_parseSignalsPhase]
    exact keys_parseMessagesPhase stmts k
  · unfold parse_messages_and_signals
    refine sigsOwn_parseSignalsPhase _ _ _ ?_
    unfold parseMessagesPhase
    refine sigsOwn_foldl_msgStep _ _ ?_
    intro p hp
    simp at hp

/-- Witness for C10 on one message and one signal. -/
theorem claimSignalsKeyInvariantWitness :
    dictMem (parse_messages_and_signals
        [Stmt.bo 100 "Msg1" 8 "ECU1", Stmt.sg sigDeclA]).signals 100 = true
    ∧ (mkSignal 100 sigDeclA).msg_id = 100 := by
  constructor
  · exact (claimSignalsKeyInvariant [Stmt.bo 100 "Msg1" 8 "ECU1", Stmt.sg sigDeclA]).1 100
      |>.mpr ⟨mkMessage 100 "Msg1" 8 "ECU1", by decide, by decide⟩
  · exact (claimSignalsKeyInvariant [Stmt.bo 100 "Msg1" 8 "ECU1", Stmt.sg sigDeclA]).2
      (100, [mkSignal 100 sigDeclA]) (by decide) (mkSignal 100 sigDeclA) (by decide)

/-- C3 counterexample: the entry with raw identifier 2147483748 does not
produce the record with scope identifier 4:SigA, because
2147483748 - 0x80000000 = 100, not 4. -/
theorem claimBaSignalScopeCounterexample :
    parse_ba_assignments [Stmt.ba "Prop" "SG_ 2147483748 SigA 5"]
      ≠ Except.ok [("SG", "4:SigA", "Prop", "5")] := by
  intro hcontra
  rw [show parse_ba_assignments [Stmt.ba "Prop" "SG_ 2147483748 SigA 5"]
      = Except.ok [("SG", "100:SigA", "Prop", "5")] from rfl] at hcontra
  simp at hcontra

/-- C3 amended: the entry with raw identifier 2147483748, which is
0x80000064, produces the record with scope SG, scope identifier 100:SigA,
attribute name Prop and value 5. -/
theorem claimBaSignalScopeAmended :
    parse_ba_assignments [Stmt.ba "Prop" "SG_ 2147483748 SigA 5"]
      = Except.ok [("SG", "100:SigA", "Prop", "5")] := rfl

/-- C4: the value table declaration with pairs 0 Off and 1 On parses to
the mapping with 0 mapped to Off and 1 mapped to On, and the shared
pair-formatter renders that mapping, sorted by key, back to the source
pair text. -/
theorem claimValueTableRoundTrip :
    dictLookup (parse_value_tables [Stmt.valTable "Tbl" "0 \"Off\" 1 \"On\""]) "Tbl"
      = some [(0, "Off"), (1, "On")]
    ∧ formatValueDict ((dictLookup
        (parse_value_tables [Stmt.valTable "Tbl" "0 \"Off\" 1 \"On\""]) "Tbl").getD [])
      = "0:\"Off\" 1:\"On\"" :=
  ⟨rfl, rfl⟩

/-- C7: the shared pair parser keeps the value of the last occurrence of a
duplicated key, and its scanner accepts negative integer keys, as the
concrete run with key -7 occurring twice shows. -/
theorem claimValueDictLastWins (p₁ p₂ : List (Int × String)) (k : Int) (v : String)
    (h : ∀ q ∈ p₂, q.1 ≠ k) :
    dictLookup (buildValueDict (p₁ ++ (k, v) :: p₂)) k = some v
    ∧ parse_value_dict "-7 \"Low\" 3 \"Mid\" -7 \"High\"" = [(-7, "High"), (3, "Mid")] := by
  constructor
  · unfold buildValueDict
    rw [List.foldl_append, List.foldl_cons]
    rw [dictLookup_foldl_dictSet_of_ne h]
    exact dictLookup_dictSet_self _ _ _
  · rfl

/-- Witness for C7 with the duplicated negative key -2. -/
theorem claimValueDictLastWinsWitness :
    dictLookup (buildValueDict ([(5, "A"), (-2, "old")] ++ (-2, "X") :: [(6, "B")])) (-2)
      = some "X" :=
  (claimValueDictLastWins [(5, "A"), (-2, "old")] [(6, "B")] (-2) "X" (by decide)).1

/-- C9: parsing is not total: a signal-scoped attribute assignment whose
message ID token is not a decimal numeral, or misses entirely, makes the
assignment extractor raise the conversion error, aborting the pass
instead of skipping the entry, so entries after it are not processed. -/
theorem claimBaParseAborts :
    parse_ba_assignments
        [Stmt.ba "Count" "42", Stmt.ba "X" "SG_ foo SigA 5", Stmt.ba "Y" "7"]
      = Except.error "invalid literal for int() with base 10: foo"
    ∧ parse_ba_assignments [Stmt.ba "X" "SG_"]
      = Except.error "invalid literal for int() with base 10: " :=
  ⟨rfl, rfl⟩

/-- C6: one VAL underscore entry is never stored in both value-table
stores: whatever the signal-scoped pass stores comes from an entry with an
all-digit leading token, is keyed by the normalized ID and the signal
name, and leaves the environment store empty, while whatever the
environment pass stores comes from a non-numeric leading token, is keyed
by that token, and leaves the signal store empty. -/
theorem claimValEntryDisambiguation (body : String) :
    (∀ q ∈ parse_signal_val_entries [Stmt.valEntry body],
        parse_env_var_val_entries [Stmt.valEntry body] = []
        ∧ ∃ ds sig vs, splitValSignal body = some (ds, sig, vs)
            ∧ isPyDigitStr ds = true
            ∧ q.1 = (normId (digitsToNat ds.toList), sig))
    ∧ (∀ q ∈ parse_env_var_val_entries [Stmt.valEntry body],
        parse_signal_val_entries [Stmt.valEntry body] = []
        ∧ ∃ tok vs, splitValEnv body = some (tok, vs)
            ∧ isPyDigitStr tok = false
            ∧ q.1 = tok) := by
  cases hs : splitValSignal body with
  | some r =>
    obtain ⟨ds, sig, vs⟩ := r
    obtain ⟨⟨renv, henv⟩, hdig⟩ := splitValSignal_env hs
    have hsig : parse_signal_val_entries [Stmt.valEntry body]
        = [((normId (digitsToNat ds.toList), sig), parse_value_dict vs)] := by
      simp only [parse_signal_val_entries, List.foldl_cons, List.foldl_nil, hs, dictSet]
    have henv0 : parse_env_var_val_entries [Stmt.valEntry body] = [] := by
      simp only [parse_env_var_val_entries, List.foldl_cons, List.foldl_nil, henv, hdig,
        if_true]
    constructor
    · intro q hq
      rw [hsig] at hq
      rcases List.mem_singleton.mp hq with rfl
      exact ⟨henv0, ds, sig, vs, rfl, hdig, rfl⟩
    · intro q hq
      rw [henv0] at hq
      simp at hq
  | none =>
    have hsig0 : parse_signal_val_entries [Stmt.valEntry body] = [] := by
      simp only [parse_signal_val_entries, List.foldl_cons, List.foldl_nil, hs]
    constructor
    · intro q hq
      rw [hsig0] at hq
      simp at hq
    · intro q hq
      cases he : splitValEnv body with
      | some r =>
        obtain ⟨tok, vs⟩ := r
        by_cases hdig : isPyDigitStr tok = true
        · have henv0 : parse_env_var_val_entries [Stmt.valEntry body] = [] := by
            simp only [parse_env_var_val_entries, List.foldl_cons, List.foldl_nil, he, hdig,
              if_true]
          rw [henv0] at hq
          simp at hq
        · have hdigf : isPyDigitStr tok = false := Bool.eq_false_iff.mpr hdig
          have henv1 : parse_env_var_val_entries [Stmt.valEntry body]
              = [(tok, parse_value_dict vs)] := by
            simp only [parse_env_var_val_entries, List.foldl_cons, List.foldl_nil, he, hdigf,
              if_false, dictSet]
            rfl
          rw [henv1] at hq
          rcases List.mem_singleton.mp hq with rfl
          exact ⟨hsig0, tok, vs, rfl, hdigf, rfl⟩
      | none =>
        have henv0 : parse_env_var_val_entries [Stmt.valEntry body] = [] := by
          simp only [parse_env_var_val_entries, List.foldl_cons, List.foldl_nil, he]
        rw [henv0] at hq
        simp at hq

/-- Witness for C6 at a numeric-led entry body. -/
theorem claimValEntryDisambiguationWitness :
    parse_env_var_val_entries [Stmt.valEntry "100 SigA 0 \"Off\""] = []
    ∧ ∃ ds sig vs, splitValSignal "100 SigA 0 \"Off\"" = some (ds, sig, vs)
        ∧ isPyDigitStr ds = true
        ∧ (((100 : Nat), "SigA") : Nat × String) = (normId (digitsToNat ds.toList), sig) :=
  (claimValEntryDisambiguation "100 SigA 0 \"Off\"").1
    ((100, "SigA"), [(0, "Off")]) (by decide)

end Dbc
